import Mathlib

/-!
Shallow embedding of the Harmonix pitch-to-notation engine.

Sources embedded here:
* `src/src/lib/audio-utils.ts` — `detectKey`, `snapToScale`, `midiToAbc`;
* `src/unnamed/part_001` — the offline quantizer `quantizeMelody`
  (bucketing, gap filling, tail extension, run-length encoding with bars,
  harmony derivation, duration formatting);
* `src/unnamed/part_002` — the buffer-synced real-time stabilizer
  (the per-frame `updatePitch` step).

Modelling conventions:
* JavaScript numbers standing for pitches and counters are `Int`/`Nat`;
  the two real-valued inputs (frequency, clarity/sensitivity) are `ℚ`.
* JS `%` is `Int.tmod`, `Math.floor(x/12)` is `Int.fdiv x 12`,
  `Math.round` is `fun x => ⌊x + 1/2⌋`.
* The transcendental `freqToMidi` (`Math.log2`) is not representable in a
  shallow embedding; the real-time step takes the frequency→midi map as an
  oracle parameter `f2m`.  (Per the repository tests, `freqToMidi 440 = 69`.)
* JS `Object.entries` iteration over integer-like keys is ascending numeric
  order, which is how the majority-vote loop of the quantizer is embedded.
* Scan loops whose index jumps are embedded with an explicit fuel argument
  initialised to the list length (the fuel never runs out on the lists the
  functions are actually applied to; fuel-irrelevance is proved below).
-/

namespace Harmonix

/-! ### Decimal rendering of a JS number (naturals only), `toLowerCase` -/

def natToStrGo : Nat → Nat → List Char → List Char
  | 0, _, acc => acc
  | _, 0, acc => acc
  | fuel + 1, n + 1, acc =>
      natToStrGo fuel ((n + 1) / 10) (Char.ofNat (48 + (n + 1) % 10) :: acc)

/-- Decimal string of a natural number, as JS `Number.prototype.toString`. -/
def natToStr (n : Nat) : String :=
  if n = 0 then "0" else String.mk (natToStrGo (n + 1) n [])

/-- JS `String.prototype.toLowerCase` restricted to the ASCII strings used here. -/
def lowerStr (s : String) : String := String.mk (s.data.map Char.toLower)

/-! ### `midiToAbc` (audio-utils.ts, lines 12–42) -/

def abcNotes : List String :=
  ["C", "^C", "D", "^D", "E", "F", "^F", "G", "^G", "A", "^A", "B"]

/-- `midiToAbc` from audio-utils.ts.  The dynamic-type guards at the top of the
source function are vacuous for integer inputs and are not represented; the
numeric path (clamp to 0..127, note table, octave marks) is embedded exactly. -/
def midiToAbc (midi : Int) : String :=
  let safeMidi : Int := max 0 (min 127 midi)
  let noteIndex : Nat := (safeMidi.tmod 12).toNat
  let octave : Int := safeMidi.fdiv 12 - 1
  let noteName : String := abcNotes.getD noteIndex "C"
  if octave = 4 then noteName
  else if octave < 4 then
    noteName ++ String.mk (List.replicate (max 0 (min 10 (4 - octave))).toNat ',')
  else
    let low := lowerStr noteName
    if octave = 5 then low
    else low ++ String.mk (List.replicate (max 0 (min 10 (octave - 5))).toNat '\'')

/-! ### `detectKey` (audio-utils.ts, lines 44–64) -/

def majorIntervals : List Nat := [0, 2, 4, 5, 7, 9, 11]

/-- The major-scale pitch-class set rooted at `root`, as the list
`majorIntervals.map (i => (root + i) % 12)` built by the source. -/
def scaleOfRoot (root : Nat) : List Int :=
  majorIntervals.map (fun i : Nat => ((root : Int) + (i : Int)).tmod 12)

def nameMap : List String :=
  ["C", "Db", "D", "Eb", "E", "F", "Gb", "G", "Ab", "A", "Bb", "B"]

/-- `chromas.filter(c => scale.includes(c)).length` for candidate root `r`. -/
def matchCount (chromas : List Int) (r : Nat) : Nat :=
  chromas.countP (fun c => decide (c ∈ scaleOfRoot r))

/-- The `for (root = 0; root < 12; ...)` loop of `detectKey`: strict `>`
against the running maximum, so the earliest maximal root wins. -/
def detectKeyLoop (chromas : List Int) : List Nat → String → Int → String
  | [], bestKey, _ => bestKey
  | r :: rs, bestKey, maxMatch =>
      if (matchCount chromas r : Int) > maxMatch then
        detectKeyLoop chromas rs (nameMap.getD r "C") (matchCount chromas r)
      else
        detectKeyLoop chromas rs bestKey maxMatch

/-- `detectKey` from audio-utils.ts. -/
def detectKey (midiNotes : List Int) : String :=
  if midiNotes.length < 5 then "C"
  else detectKeyLoop (midiNotes.map (fun m => m.tmod 12)) (List.range 12) "C" (-1)

/-! ### `snapToScale` (audio-utils.ts, lines 66–100) -/

/-- The entries of the source's `rootMap` record. -/
def rootPairs : List (String × Int) :=
  [("C", 0), ("Db", 1), ("D", 2), ("Eb", 3), ("E", 4), ("F", 5),
   ("Gb", 6), ("G", 7), ("Ab", 8), ("A", 9), ("Bb", 10), ("B", 11)]

/-- `rootMap[key] || 0` of the source (the `||` default also covers the
map's own `'C' ↦ 0` entry, so the value is the table lookup with default 0). -/
def rootOf (key : String) : Int :=
  ((rootPairs.find? (fun kv => kv.1 == key)).map Prod.snd).getD 0

/-- The scale list `intervals.map(i => (root + i) % 12)` of `snapToScale`.
Every entry of `majorScaleOffsets` in the source is `[0,2,4,5,7,9,11]`, and the
`|| majorScaleOffsets['C']` fallback yields the same list, so the interval list
is `majorIntervals` for every key. -/
def scaleOf (key : String) : List Int :=
  majorIntervals.map (fun i : Nat => (rootOf key + (i : Int)).tmod 12)

/-- `let diff = Math.abs(chroma - s); if (diff > 6) diff = 12 - diff;` -/
def circDiff (a b : Int) : Int :=
  if |a - b| > 6 then 12 - |a - b| else |a - b|

/-- The `for (const s of scale)` argmin loop of `snapToScale`: strict `<`
against the running minimum, so the earliest minimising degree wins. -/
def snapLoop (chroma base : Int) : List Int → Int → Int → Int
  | [], best, _ => best
  | s :: ss, best, minDiff =>
      if circDiff chroma s < minDiff then snapLoop chroma base ss (base + s) (circDiff chroma s)
      else snapLoop chroma base ss best minDiff

/-- `snapToScale` from audio-utils.ts; `base` is `Math.floor(midi/12)*12`. -/
def snapToScale (midi : Int) (key : String) : Int :=
  let scale := scaleOf key
  let chroma := midi.tmod 12
  if chroma ∈ scale then midi
  else snapLoop chroma (midi.fdiv 12 * 12) scale midi 13

/-! ### Harmony fold and the live range lock (part_001 lines 146–148 and
244–246; identical code in part_002) -/

/-- `while (hMidi > 55) hMidi -= 12;` -/
def foldDown (h : Int) : Int :=
  if 55 < h then foldDown (h - 12) else h
termination_by (h - 55).toNat
decreasing_by omega

/-- `while (hMidi < 36) hMidi += 12;` -/
def foldUp (h : Int) : Int :=
  if h < 36 then foldUp (h + 12) else h
termination_by (36 - h).toNat
decreasing_by omega

/-- `hMidi = note - 12` followed by the two folding loops. -/
def harmonyOf (p : Int) : Int := foldUp (foldDown (p - 12))

/-- `while (midi < 48) midi += 12;` -/
def rangeUp (m : Int) : Int :=
  if m < 48 then rangeUp (m + 12) else m
termination_by (48 - m).toNat
decreasing_by omega

/-- `while (midi > 84) midi -= 12;` -/
def rangeDown (m : Int) : Int :=
  if 84 < m then rangeDown (m - 12) else m
termination_by (m - 84).toNat
decreasing_by omega

/-- The live-mode vocal range lock (C3–C6). -/
def rangeLock (m : Int) : Int := rangeDown (rangeUp m)

/-! ### Offline quantizer, step 1: bucketing (part_001 lines 29–71) -/

/-- JS `Math.round`. -/
def jsRound (x : ℚ) : Int := ⌊x + 1/2⌋

/-- Insert into a sorted duplicate-free list of pitches: used to realise the
ascending-numeric-key iteration order of `Object.entries(counts)`. -/
def insSortedNodup (x : Int) : List Int → List Int
  | [] => [x]
  | y :: ys => if x < y then x :: y :: ys else if x = y then y :: ys else y :: insSortedNodup x ys

/-- The distinct pitches of a chunk in ascending order (the iteration order of
`Object.entries` over the integer-keyed `counts` record). -/
def sortedKeys (vals : List Int) : List Int :=
  vals.foldl (fun acc v => insSortedNodup v acc) []

/-- One step of the majority-vote loop: `if (count > maxCount) {...}`. -/
def voteStep (vals : List Int) (acc : Int × Int) (k : Int) : Int × Int :=
  if (vals.count k : Int) > acc.2 then (k, (vals.count k : Int)) else acc

/-- The majority-vote result for a chunk's non-silent values:
`(bestNote, maxCount)` starting from `(-1, -1)`. -/
def voteBest (vals : List Int) : Int × Int :=
  (sortedKeys vals).foldl (voteStep vals) (-1, -1)

/-- One grid cell from one chunk of raw slices (part_001 lines 38–70):
silence threshold test (`nullRatio > 0.2 + sensitivity*0.6`), majority vote
with the `-1` sentinel, scale snap. -/
def chunkVote (key : String) (sens : ℚ) (chunk : List (Option Int)) : Option Int :=
  if ((chunk.countP (fun n => decide (n = none)) : ℚ) / (chunk.length : ℚ)) >
      1/5 + sens * (3/5) then
    none
  else if (voteBest (chunk.filterMap id)).1 ≠ -1 then
    some (snapToScale (voteBest (chunk.filterMap id)).1 key)
  else none

/-- `for (let i = 0; i < rawNotes.length; i += slicesPerGrid)` chunking, with
fuel (initialised to the list length, which always suffices since the step is
at least 1). -/
def chunksF (n : Nat) : Nat → List (Option Int) → List (List (Option Int))
  | _, [] => []
  | 0, _ :: _ => []
  | fuel + 1, x :: xs =>
      (x :: xs).take (max 1 n) :: chunksF n fuel ((x :: xs).drop (max 1 n))

def chunksOf (n : Nat) (l : List (Option Int)) : List (List (Option Int)) :=
  chunksF n l.length l

/-- Step 1 of `quantizeMelody`: bucket raw slices into grid cells. -/
def bucketGrid (raw : List (Option Int)) (spg : Nat) (key : String) (sens : ℚ) :
    List (Option Int) :=
  (chunksOf spg raw).map (chunkVote key sens)

/-! ### Offline smoother: gap filling (part_001 lines 73–86) and tail
extension (part_001 lines 88–109) -/

/-- The sequential gap-fill pass; `prevv` is the (already final) value of the
previous cell, and the last cell is never examined (`i < length-1`).  Both the
`prev === next` and the `prev !== next` branches of the source assign `prev`. -/
def gapFillAux : Option Int → List (Option Int) → List (Option Int)
  | _, [] => []
  | _, [c] => [c]
  | prevv, c :: next :: rest =>
      if c = none ∧ prevv ≠ none ∧ next ≠ none then
        prevv :: gapFillAux prevv (next :: rest)
      else
        c :: gapFillAux c (next :: rest)

/-- Gap filling: the loop starts at index 1, so the first cell is untouched. -/
def gapFill : List (Option Int) → List (Option Int)
  | [] => []
  | c :: rest => c :: gapFillAux c rest

/-- Length of the leading run of cells equal to `some p`
(`while (j < len && gridNotes[j] === pitch)`). -/
def countLeading (p : Int) : List (Option Int) → Nat
  | [] => 0
  | x :: rest => if x = some p then 1 + countLeading p rest else 0

/-- The tail-extension scan with fuel.  At a non-silent cell the run length is
`1 + countLeading`; if the cell after the run exists and is silent and the run
length is 3, 7 or 15, that cell becomes the run's pitch and the scan resumes at
it (`i = j`); otherwise the scan resumes at the cell after the run. -/
def tailAF : Nat → List (Option Int) → List (Option Int)
  | 0, l => l
  | _ + 1, [] => []
  | fuel + 1, none :: rest => none :: tailAF fuel rest
  | fuel + 1, some p :: rest =>
      if (rest.drop (countLeading p rest)).head? = some none ∧
          (countLeading p rest + 1 = 3 ∨ countLeading p rest + 1 = 7 ∨
            countLeading p rest + 1 = 15) then
        List.replicate (countLeading p rest + 1) (some p) ++
          tailAF fuel (some p :: (rest.drop (countLeading p rest)).tail)
      else
        List.replicate (countLeading p rest + 1) (some p) ++
          tailAF fuel (rest.drop (countLeading p rest))

/-- Tail extension (fuel = list length always suffices; see `tailAF_irrel`). -/
def tailExtend (l : List (Option Int)) : List (Option Int) := tailAF l.length l

/-- The grid produced by the offline quantizer before encoding:
bucketing, then gap filling, then tail extension (part_001 lines 29–109). -/
def quantizeGrid (raw : List (Option Int)) (sampleRate sliceSize : ℚ)
    (key : String) (q : Nat) (sens : ℚ) : List (Option Int) :=
  let secondsPerGrid : ℚ := 2 / (q : ℚ)
  let samplesPerGrid : ℚ := sampleRate * secondsPerGrid
  let spg : Nat := (max 1 (jsRound (samplesPerGrid / sliceSize))).toNat
  tailExtend (gapFill (bucketGrid raw spg key sens))

/-! ### Encoder (part_001 lines 111–188) -/

/-- An abstract emitted token: the source pushes, in lockstep, one melody
string and one harmony string per run and a `"|"` to both per bar. -/
inductive Tok
  | bar : Tok
  | run (p : Option Int) (d : Nat) : Tok

/-- `getDurStr` (part_001 lines 118–134). -/
def getDurStr (q d : Nat) : String :=
  if q = 8 then (if d = 1 then "" else natToStr d)
  else if q = 16 then
    (if d % 2 = 0 then (if d / 2 = 1 then "" else natToStr (d / 2))
     else (if d = 1 then "/2" else natToStr d ++ "/2"))
  else if q = 4 then natToStr (d * 2)
  else natToStr d

/-- `const safeAbc = (abc && abc !== "undefined") ? abc : "z"`. -/
def safeAbc (abc : String) : String :=
  if abc ≠ "" ∧ abc ≠ "undefined" then abc else "z"

/-- The melody string a token contributes (`pushNote`, part_001 lines 136–156). -/
def melTokStr (q : Nat) : Tok → String
  | Tok.bar => "|"
  | Tok.run none d => "z" ++ getDurStr q d
  | Tok.run (some p) d => safeAbc (midiToAbc p) ++ getDurStr q d

/-- The harmony string a token contributes (`pushNote`, harmony side). -/
def harTokStr (q : Nat) : Tok → String
  | Tok.bar => "|"
  | Tok.run none d => "z" ++ getDurStr q d
  | Tok.run (some p) d => safeAbc (midiToAbc (harmonyOf p)) ++ getDurStr q d

/-- The encode loop (part_001 lines 160–186) as a recursion on the remaining
cells, carrying the loop index `i`, `lastNote` and `duration`. -/
def encodeLoop (q : Nat) : List (Option Int) → Nat → Option Int → Nat → List Tok
  | [], _, last, dur => if 0 < dur then [Tok.run last dur] else []
  | c :: cs, i, last, dur =>
      if 0 < i ∧ i % q = 0 then
        (if 0 < dur then [Tok.run last dur] else []) ++ Tok.bar :: encodeLoop q cs (i + 1) c 1
      else if dur = 0 then encodeLoop q cs (i + 1) c 1
      else if c = last then encodeLoop q cs (i + 1) last (dur + 1)
      else Tok.run last dur :: encodeLoop q cs (i + 1) c 1

/-- The token sequence the encoder emits for a grid. -/
def encodeToks (q : Nat) (g : List (Option Int)) : List Tok :=
  encodeLoop q g 0 none 0

/-- `quantizeMelody` (part_001 lines 21–189): the melody and harmony string
sequences, both images of the single emitted token sequence. -/
def quantizeMelody (raw : List (Option Int)) (sampleRate sliceSize : ℚ)
    (key : String) (q : Nat) (sens : ℚ) : List String × List String :=
  let toks := encodeToks q (quantizeGrid raw sampleRate sliceSize key q sens)
  (toks.map (melTokStr q), toks.map (harTokStr q))

/-- Total grid duration carried by a token list. -/
def sumDur : List Tok → Nat
  | [] => 0
  | Tok.bar :: ts => sumDur ts
  | Tok.run _ d :: ts => d + sumDur ts

/-- Consumed-cell positions of the bar markers in a token list. -/
def barPosAux : Nat → List Tok → List Nat
  | _, [] => []
  | acc, Tok.bar :: ts => acc :: barPosAux acc ts
  | acc, Tok.run _ d :: ts => barPosAux (acc + d) ts

def barPositions (ts : List Tok) : List Nat := barPosAux 0 ts

/-- The loop indices in `[i, i+n)` at which the encoder inserts a bar. -/
def barIdx (q i n : Nat) : List Nat :=
  ((List.range n).map (i + ·)).filter (fun j => decide (0 < j ∧ j % q = 0))

/-! ### Real-time stabilizer (part_002 lines 752–856) -/

/-- The per-session detection state and token buffers. -/
structure RTState where
  lastMidi : Option Int
  stableFrames : Nat
  isContinuous : Bool
  gridUnits : Nat
  mel : List String
  har : List String
  liveMidi : List Int

/-- `const baseClarity = 0.95 - (sensitivity * 0.35)`. -/
def baseClarity (sens : ℚ) : ℚ := 95/100 - sens * (35/100)

def digitsToNat (ds : List Char) : Nat :=
  ds.foldl (fun a c => 10 * a + (c.toNat - 48)) 0

/-- `lastItem.match(/\d+$/)`: the maximal trailing digit run, if any. -/
def trailingNat (s : String) : Option Nat :=
  let ds := (s.data.reverse.takeWhile Char.isDigit).reverse
  if ds = [] then none else some (digitsToNat ds)

/-- The merge guard of the confirmed-pitch branch:
`isContinuous && lastItem && lastItem !== "|" && lastItem.startsWith(abc)`
(an out-of-range `lastItem` is JS-falsy, hence the `getLast?` match). -/
def rtShouldMerge (st : RTState) (abc : String) : Bool :=
  st.isContinuous && (match st.mel.getLast? with
    | some s => (!(s == "")) && (!(s == "|")) && s.startsWith abc
    | none => false)

/-- The `stableFrames === 6` emission of part_002 (lines 788–841): compute the
melody and harmony letters, decide the bar insertion first
(`gridUnitsFilled++ ; insertBar = gridUnitsFilled >= qValue`), then either
extend the last token of both buffers (parsing the trailing digit run, `+ 1`)
or push a fresh token to both, and finally append `"|"` to both when due. -/
def rtEmit (q : Nat) (st : RTState) (midi : Int) : RTState :=
  if rtShouldMerge st (midiToAbc midi) then
    { st with
      mel := (st.mel.set (st.mel.length - 1)
          (midiToAbc midi ++ natToStr ((trailingNat ((st.mel.getLast?).getD "")).getD 1 + 1)))
        ++ (if q ≤ st.gridUnits + 1 then ["|"] else []),
      har := (st.har.set (st.mel.length - 1)
          (midiToAbc (harmonyOf midi) ++
            natToStr ((trailingNat (st.har.getD (st.mel.length - 1) "")).getD 1 + 1)))
        ++ (if q ≤ st.gridUnits + 1 then ["|"] else []),
      gridUnits := if q ≤ st.gridUnits + 1 then 0 else st.gridUnits + 1,
      isContinuous := true, stableFrames := 0 }
  else
    { st with
      mel := (st.mel ++ [midiToAbc midi]) ++ (if q ≤ st.gridUnits + 1 then ["|"] else []),
      har := (st.har ++ [midiToAbc (harmonyOf midi)]) ++
        (if q ≤ st.gridUnits + 1 then ["|"] else []),
      liveMidi := st.liveMidi ++ [midi],
      gridUnits := if q ≤ st.gridUnits + 1 then 0 else st.gridUnits + 1,
      isContinuous := true, stableFrames := 0 }

/-- One frame of the part_002 `updatePitch` loop (lines 770–849).  The
frequency→midi map `f2m` is the `freqToMidi` oracle.  State updates mirror the
source: the silence guard `pitch < 85 || pitch > 1200 || clarity < baseClarity`
resets detection state only; a repeated pitch increments `stableFrames` and on
reaching exactly 6 runs `rtEmit`; a changed pitch resets the candidate. -/
def rtStep (q : Nat) (base : ℚ) (f2m : ℚ → Int) (st : RTState) (fr : ℚ × ℚ) : RTState :=
  if fr.1 < 85 ∨ 1200 < fr.1 ∨ fr.2 < base then
    { st with lastMidi := none, stableFrames := 0, isContinuous := false }
  else if some (rangeLock (f2m fr.1)) = st.lastMidi then
    (if st.stableFrames + 1 = 6 then rtEmit q st (rangeLock (f2m fr.1))
     else { st with stableFrames := st.stableFrames + 1 })
  else
    { st with
      lastMidi := some (rangeLock (f2m fr.1)), stableFrames := 0, isContinuous := false }

/-- The session state at recording start (part_002 lines 724–756). -/
def rtInit : RTState :=
  { lastMidi := none, stableFrames := 0, isContinuous := false,
    gridUnits := 0, mel := [], har := [], liveMidi := [] }

/-- The state after a sequence of frames. -/
def rtRun (q : Nat) (base : ℚ) (f2m : ℚ → Int) (frames : List (ℚ × ℚ)) : RTState :=
  frames.foldl (rtStep q base f2m) rtInit

/-! ### Specification-side predicates -/

/-- A token string is a bar marker exactly when it is `"|"`. -/
def isBarTok (s : String) : Prop := s = "|"

/-- A token string is a rest exactly when it is rendered with the letter `z`. -/
def isRestTok (s : String) : Prop := s.data.head? = some 'z'

/-- Melody/harmony buffers are aligned: same length, bars at the same indices,
rests at the same indices. -/
def Aligned (mel har : List String) : Prop :=
  mel.length = har.length ∧
  ∀ i : Nat, (isBarTok (mel.getD i "") ↔ isBarTok (har.getD i "")) ∧
    (isRestTok (mel.getD i "") ↔ isRestTok (har.getD i ""))

/-- No interior silent cell has non-silent cells on both sides. -/
def noIso : List (Option Int) → Prop
  | a :: b :: c :: rest => ¬(b = none ∧ a ≠ none ∧ c ≠ none) ∧ noIso (b :: c :: rest)
  | _ => True

/-- A session state with a candidate pitch one frame away from confirmation
(used to examine the silence-classification boundary). -/
def stBoundary : RTState :=
  { lastMidi := some 69, stableFrames := 5, isContinuous := false,
    gridUnits := 0, mel := [], har := [], liveMidi := [] }

/-- First character of a string is a plausible token head: not a bar, not a
rest letter, not the head of `"undefined"` — and likewise after lowering. -/
def headOK (s : String) : Bool :=
  match s.data with
  | [] => false
  | c :: _ =>
      !(c == '|') && !(c == 'z') && !(c == 'u') &&
      !(c.toLower == '|') && !(c.toLower == 'z') && !(c.toLower == 'u')

/-! ## Harmony fold: basic lemmas -/

lemma foldDown_le (h : Int) : foldDown h ≤ 55 := by
  induction h using foldDown.induct with
  | case1 h hlt ih => rw [foldDown, if_pos hlt]; exact ih
  | case2 h hle => rw [foldDown, if_neg hle]; omega

lemma foldDown_lb (h : Int) : min h 44 ≤ foldDown h := by
  induction h using foldDown.induct with
  | case1 h hlt ih =>
      rw [foldDown, if_pos hlt]
      have : min (h - 12) 44 ≤ foldDown (h - 12) := ih
      omega
  | case2 h hle => rw [foldDown, if_neg hle]; omega

lemma foldDown_sub (h : Int) : ∃ k : Nat, foldDown h = h - 12 * k := by
  induction h using foldDown.induct with
  | case1 h hlt ih =>
      obtain ⟨k, hk⟩ := ih
      exact ⟨k + 1, by rw [foldDown, if_pos hlt, hk]; push_cast; ring⟩
  | case2 h hle => exact ⟨0, by rw [foldDown, if_neg hle]; simp⟩

lemma foldUp_ge (h : Int) : 36 ≤ foldUp h := by
  induction h using foldUp.induct with
  | case1 h hlt ih => rw [foldUp, if_pos hlt]; exact ih
  | case2 h hle => rw [foldUp, if_neg hle]; omega

lemma foldUp_ub (h : Int) : foldUp h ≤ max h 47 := by
  induction h using foldUp.induct with
  | case1 h hlt ih =>
      rw [foldUp, if_pos hlt]
      have : foldUp (h + 12) ≤ max (h + 12) 47 := ih
      omega
  | case2 h hle => rw [foldUp, if_neg hle]; omega

lemma foldUp_add (h : Int) : ∃ k : Nat, foldUp h = h + 12 * k := by
  induction h using foldUp.induct with
  | case1 h hlt ih =>
      obtain ⟨k, hk⟩ := ih
      exact ⟨k + 1, by rw [foldUp, if_pos hlt, hk]; push_cast; ring⟩
  | case2 h hle => exact ⟨0, by rw [foldUp, if_neg hle]; simp⟩

lemma harmonyOf_mem (p : Int) : 36 ≤ harmonyOf p ∧ harmonyOf p ≤ 55 := by
  unfold harmonyOf
  have h1 := foldDown_le (p - 12)
  have h2 := foldUp_ge (foldDown (p - 12))
  have h3 := foldUp_ub (foldDown (p - 12))
  exact ⟨h2, by omega⟩

/-- C7: for every (integer) melody pitch `p`, the derived harmony pitch is
`p - 12` shifted by a whole number of octaves and lies in `[36, 55]`; a silent
melody cell contributes the same rest string `"z" ++ durStr` to both the melody
and the harmony buffer, so the harmony rest is aligned with the melody rest. -/
theorem harmony_register_spec :
    (∀ p : Int, 36 ≤ harmonyOf p ∧ harmonyOf p ≤ 55 ∧
      ∃ k : Int, harmonyOf p = p - 12 + 12 * k)
    ∧ (∀ q d, harTokStr q (Tok.run none d) = melTokStr q (Tok.run none d)
        ∧ isRestTok (harTokStr q (Tok.run none d))) := by
  constructor
  · intro p
    refine ⟨(harmonyOf_mem p).1, (harmonyOf_mem p).2, ?_⟩
    obtain ⟨k1, hk1⟩ := foldDown_sub (p - 12)
    obtain ⟨k2, hk2⟩ := foldUp_add (foldDown (p - 12))
    exact ⟨(k2 : Int) - (k1 : Int), by unfold harmonyOf; rw [hk2, hk1]; ring⟩
  · intro q d
    refine ⟨rfl, ?_⟩
    show (("z" ++ getDurStr q d : String)).data.head? = some 'z'
    rw [String.data_append]
    rfl

/-- C8: the duration-unit-to-string mapping of the encoder, exactly as the
specification states it for qValue 8, 16 and 4 (`natToStr` is the decimal
rendering of a natural number). -/
theorem getDurStr_spec (d : Nat) :
    getDurStr 8 d = (if d = 1 then "" else natToStr d)
    ∧ getDurStr 16 d =
        (if d % 2 = 0 then (if d / 2 = 1 then "" else natToStr (d / 2))
         else (if d = 1 then "/2" else natToStr d ++ "/2"))
    ∧ getDurStr 4 d = natToStr (2 * d) := by
  refine ⟨rfl, rfl, ?_⟩
  show (if (4 : Nat) = 8 then (if d = 1 then "" else natToStr d) else _) = _
  norm_num [getDurStr, Nat.mul_comm]

/-! ## C3: bar markers appear after exactly every `qValue` consumed cells -/

lemma barIdx_succ (q i n : Nat) :
    barIdx q i (n + 1) =
      (if 0 < i ∧ i % q = 0 then [i] else []) ++ barIdx q (i + 1) n := by
  unfold barIdx
  rw [List.range_succ_eq_map, List.map_cons, List.map_map]
  have hcomp : ((i + ·) ∘ Nat.succ) = ((i + 1) + ·) := by
    funext x; simp [Function.comp]; omega
  rw [hcomp]
  by_cases hP : 0 < i ∧ i % q = 0 <;> simp [List.filter_cons, hP]

lemma encodeLoop_bars (q : Nat) :
    ∀ (cs : List (Option Int)) (i : Nat) (last : Option Int) (dur : Nat),
      dur ≤ i →
      barPosAux (i - dur) (encodeLoop q cs i last dur) = barIdx q i cs.length
      ∧ sumDur (encodeLoop q cs i last dur) = dur + cs.length := by
  intro cs
  induction cs with
  | nil =>
      intro i last dur hdur
      constructor
      · show barPosAux (i - dur) (if 0 < dur then [Tok.run last dur] else []) = barIdx q i 0
        split <;> simp [barPosAux, barIdx]
      · show sumDur (if 0 < dur then [Tok.run last dur] else []) = dur + 0
        split
        · simp [sumDur]
        · simp [sumDur]
          omega
  | cons c cs ih =>
      intro i last dur hdur
      rw [show (c :: cs).length = cs.length + 1 from rfl, barIdx_succ]
      by_cases hbar : 0 < i ∧ i % q = 0
      · have h1 := ih (i + 1) c 1 (by omega)
        rw [show (i + 1) - 1 = i from rfl] at h1
        by_cases hd : 0 < dur
        · rw [show encodeLoop q (c :: cs) i last dur =
              Tok.run last dur :: Tok.bar :: encodeLoop q cs (i + 1) c 1 from by
            rw [encodeLoop, if_pos hbar, if_pos hd]; rfl]
          constructor
          · rw [show barPosAux (i - dur) (Tok.run last dur :: Tok.bar ::
                encodeLoop q cs (i + 1) c 1) =
                (i - dur + dur) :: barPosAux (i - dur + dur)
                  (encodeLoop q cs (i + 1) c 1) from rfl]
            rw [show i - dur + dur = i from by omega, h1.1, if_pos hbar]
            rfl
          · show dur + sumDur (Tok.bar :: encodeLoop q cs (i + 1) c 1) = dur + (cs.length + 1)
            rw [show sumDur (Tok.bar :: encodeLoop q cs (i + 1) c 1) =
              sumDur (encodeLoop q cs (i + 1) c 1) from rfl, h1.2]
            omega
        · rw [show encodeLoop q (c :: cs) i last dur =
              Tok.bar :: encodeLoop q cs (i + 1) c 1 from by
            rw [encodeLoop, if_pos hbar, if_neg hd]; rfl]
          have hdz : dur = 0 := by omega
          constructor
          · rw [show barPosAux (i - dur) (Tok.bar :: encodeLoop q cs (i + 1) c 1) =
                (i - dur) :: barPosAux (i - dur) (encodeLoop q cs (i + 1) c 1) from rfl]
            rw [hdz, Nat.sub_zero, h1.1, if_pos hbar]
            rfl
          · show sumDur (encodeLoop q cs (i + 1) c 1) = dur + (cs.length + 1)
            rw [h1.2]; omega
      · rw [if_neg hbar, List.nil_append]
        by_cases hdz : dur = 0
        · rw [show encodeLoop q (c :: cs) i last dur = encodeLoop q cs (i + 1) c 1 from by
            rw [encodeLoop, if_neg hbar, if_pos hdz]]
          have h1 := ih (i + 1) c 1 (by omega)
          rw [show (i + 1) - 1 = i from rfl] at h1
          subst hdz
          exact ⟨by simpa using h1.1, by rw [h1.2]; omega⟩
        · by_cases hcl : c = last
          · rw [show encodeLoop q (c :: cs) i last dur = encodeLoop q cs (i + 1) last (dur + 1) from by
              rw [encodeLoop, if_neg hbar, if_neg hdz, if_pos hcl]]
            have h1 := ih (i + 1) last (dur + 1) (by omega)
            rw [show (i + 1) - (dur + 1) = i - dur from by omega] at h1
            exact ⟨h1.1, by rw [h1.2]; omega⟩
          · rw [show encodeLoop q (c :: cs) i last dur =
                Tok.run last dur :: encodeLoop q cs (i + 1) c 1 from by
              rw [encodeLoop, if_neg hbar, if_neg hdz, if_neg hcl]]
            have h1 := ih (i + 1) c 1 (by omega)
            rw [show (i + 1) - 1 = i from rfl] at h1
            constructor
            · rw [show barPosAux (i - dur) (Tok.run last dur :: encodeLoop q cs (i + 1) c 1) =
                  barPosAux (i - dur + dur) (encodeLoop q cs (i + 1) c 1) from rfl]
              rw [show i - dur + dur = i from by omega, h1.1]
            · show dur + sumDur (encodeLoop q cs (i + 1) c 1) = dur + (cs.length + 1)
              rw [h1.2]; omega

/-- C3: in the offline encoder's token stream, the consumed-cell positions of
the bar markers are exactly the positive multiples of `qValue` below the grid
length (so a marker follows every full bar of `qValue` consumed cells, none
follows the final possibly partial bar, and the total encoded duration equals
the grid length — the pending run is flushed, no marker is appended after it). -/
theorem barMarker_exactly_every_qValue (q : Nat) (g : List (Option Int)) :
    barPositions (encodeToks q g) =
      (List.range g.length).filter (fun j => decide (0 < j ∧ j % q = 0))
    ∧ sumDur (encodeToks q g) = g.length := by
  have h := encodeLoop_bars q g 0 none 0 (le_refl 0)
  constructor
  · have h0 : barPositions (encodeToks q g) = barPosAux (0 - 0) (encodeLoop q g 0 none 0) := rfl
    rw [h0, h.1]
    unfold barIdx
    congr 1
    have : ((0 : Nat) + ·) = (fun j : Nat => j) := by funext x; omega
    rw [this, List.map_id']
  · have := h.2
    simpa using this

/-! ## ScaleSnapper: the argmin loop and range behaviour (C5, C1) -/

lemma circDiff_lt_13 (a b : Int) : circDiff a b < 13 := by
  unfold circDiff
  split <;> omega

lemma snapLoop_inv (chroma base : Int) :
    ∀ (l : List Int) (best minD : Int),
      (snapLoop chroma base l best minD = best ∧ ∀ s ∈ l, minD ≤ circDiff chroma s)
      ∨ (∃ i, ∃ hi : i < l.length,
          snapLoop chroma base l best minD = base + l.get ⟨i, hi⟩
          ∧ circDiff chroma (l.get ⟨i, hi⟩) < minD
          ∧ (∀ j, ∀ hj : j < l.length,
              circDiff chroma (l.get ⟨i, hi⟩) ≤ circDiff chroma (l.get ⟨j, hj⟩))
          ∧ (∀ j, ∀ hj : j < l.length, j < i →
              circDiff chroma (l.get ⟨i, hi⟩) < circDiff chroma (l.get ⟨j, hj⟩))) := by
  intro l
  induction l with
  | nil => intro best minD; left; exact ⟨rfl, by simp⟩
  | cons s ss ih =>
      intro best minD
      by_cases hlt : circDiff chroma s < minD
      · rw [show snapLoop chroma base (s :: ss) best minD =
            snapLoop chroma base ss (base + s) (circDiff chroma s) from by
          rw [snapLoop, if_pos hlt]]
        rcases ih (base + s) (circDiff chroma s) with ⟨heq, hall⟩ | ⟨i, hi, heq, hlt2, hglob, hstr⟩
        · right
          refine ⟨0, by simp, by simpa using heq, by simpa using hlt, ?_, ?_⟩
          · intro j hj
            cases j with
            | zero => simp
            | succ j => exact hall (ss.get ⟨j, by simpa using hj⟩) (List.get_mem _ _ _)
          · intro j hj hj0; omega
        · right
          refine ⟨i + 1, by simpa using hi, by simpa using heq, ?_, ?_, ?_⟩
          · calc circDiff chroma ((s :: ss).get ⟨i + 1, by simpa using hi⟩)
                = circDiff chroma (ss.get ⟨i, hi⟩) := rfl
              _ < circDiff chroma s := hlt2
              _ < minD := hlt
          · intro j hj
            cases j with
            | zero =>
                show circDiff chroma (ss.get ⟨i, hi⟩) ≤ circDiff chroma s
                omega
            | succ j => exact hglob j (by simpa using hj)
          · intro j hj hji
            cases j with
            | zero =>
                show circDiff chroma (ss.get ⟨i, hi⟩) < circDiff chroma s
                omega
            | succ j => exact hstr j (by simpa using hj) (by omega)
      · rw [show snapLoop chroma base (s :: ss) best minD =
            snapLoop chroma base ss best minD from by
          rw [snapLoop, if_neg hlt]]
        rcases ih best minD with ⟨heq, hall⟩ | ⟨i, hi, heq, hlt2, hglob, hstr⟩
        · left
          refine ⟨heq, ?_⟩
          intro x hx
          rcases List.mem_cons.mp hx with hx | hx
          · subst hx; omega
          · exact hall x hx
        · right
          refine ⟨i + 1, by simpa using hi, by simpa using heq, hlt2, ?_, ?_⟩
          · intro j hj
            cases j with
            | zero =>
                show circDiff chroma (ss.get ⟨i, hi⟩) ≤ circDiff chroma s
                omega
            | succ j => exact hglob j (by simpa using hj)
          · intro j hj hji
            cases j with
            | zero =>
                show circDiff chroma (ss.get ⟨i, hi⟩) < circDiff chroma s
                omega
            | succ j => exact hstr j (by simpa using hj) (by omega)

lemma rootOf_bounds (key : String) : 0 ≤ rootOf key ∧ rootOf key ≤ 11 := by
  unfold rootOf
  cases hf : rootPairs.find? (fun kv => kv.1 == key) with
  | none => norm_num
  | some kv =>
      have hmem : kv ∈ rootPairs := List.mem_of_find?_eq_some hf
      have hall : ∀ kv2 ∈ rootPairs, 0 ≤ kv2.2 ∧ kv2.2 ≤ 11 := by decide
      simpa using hall kv hmem

lemma scaleOf_mem_bounds (key : String) : ∀ s ∈ scaleOf key, 0 ≤ s ∧ s < 12 := by
  intro s hs
  obtain ⟨i, hi, hsi⟩ := List.mem_map.mp hs
  have h1 : (0 : Int) ≤ rootOf key := (rootOf_bounds key).1
  have h2 : (0 : Int) ≤ (i : Int) := Int.natCast_nonneg i
  have h3 : (rootOf key + (i : Int)).tmod 12 = (rootOf key + (i : Int)) % 12 :=
    Int.tmod_eq_emod (by omega) (by norm_num)
  rw [← hsi, h3]
  constructor
  · exact Int.emod_nonneg _ (by norm_num)
  · exact Int.emod_lt_of_pos _ (by norm_num)

lemma scaleOf_length (key : String) : (scaleOf key).length = 7 := by
  simp [scaleOf, majorIntervals]

lemma snapToScale_in_scale (midi : Int) (key : String)
    (h : midi.tmod 12 ∈ scaleOf key) : snapToScale midi key = midi := by
  unfold snapToScale
  rw [if_pos h]

lemma snapToScale_out_scale (midi : Int) (key : String)
    (h : midi.tmod 12 ∉ scaleOf key) :
    ∃ i, ∃ hi : i < (scaleOf key).length,
      snapToScale midi key = midi.fdiv 12 * 12 + (scaleOf key).get ⟨i, hi⟩
      ∧ (∀ j, ∀ hj : j < (scaleOf key).length,
          circDiff (midi.tmod 12) ((scaleOf key).get ⟨i, hi⟩)
            ≤ circDiff (midi.tmod 12) ((scaleOf key).get ⟨j, hj⟩))
      ∧ (∀ j, ∀ hj : j < (scaleOf key).length, j < i →
          circDiff (midi.tmod 12) ((scaleOf key).get ⟨i, hi⟩)
            < circDiff (midi.tmod 12) ((scaleOf key).get ⟨j, hj⟩)) := by
  have hloop := snapLoop_inv (midi.tmod 12) (midi.fdiv 12 * 12) (scaleOf key) midi 13
  have hres : snapToScale midi key =
      snapLoop (midi.tmod 12) (midi.fdiv 12 * 12) (scaleOf key) midi 13 := by
    unfold snapToScale
    rw [if_neg h]
  rcases hloop with ⟨heq, hall⟩ | ⟨i, hi, heq, _, hglob, hstr⟩
  · exfalso
    have h7 : (scaleOf key).length = 7 := scaleOf_length key
    have hmem : (scaleOf key).get ⟨0, by omega⟩ ∈ scaleOf key := List.get_mem _ _ _
    have := hall _ hmem
    have := circDiff_lt_13 (midi.tmod 12) ((scaleOf key).get ⟨0, by omega⟩)
    omega
  · exact ⟨i, hi, by rw [hres, heq], hglob, hstr⟩

/-- C5: `snapToScale` returns the input unchanged when its class is in the
key's scale; otherwise it returns the pitch whose class is the scale degree of
minimal circular distance (wrapping at 6), ties resolved by the earliest degree
in ascending interval order, placed in the octave `Math.floor(midi/12)` of the
input. -/
theorem snapToScale_spec (midi : Int) (key : String) :
    (midi.tmod 12 ∈ scaleOf key → snapToScale midi key = midi)
    ∧ (midi.tmod 12 ∉ scaleOf key →
        ∃ i, ∃ hi : i < (scaleOf key).length,
          snapToScale midi key = midi.fdiv 12 * 12 + (scaleOf key).get ⟨i, hi⟩
          ∧ (∀ j, ∀ hj : j < (scaleOf key).length,
              circDiff (midi.tmod 12) ((scaleOf key).get ⟨i, hi⟩)
                ≤ circDiff (midi.tmod 12) ((scaleOf key).get ⟨j, hj⟩))
          ∧ (∀ j, ∀ hj : j < (scaleOf key).length, j < i →
              circDiff (midi.tmod 12) ((scaleOf key).get ⟨i, hi⟩)
                < circDiff (midi.tmod 12) ((scaleOf key).get ⟨j, hj⟩))
          ∧ (snapToScale midi key).fdiv 12 = midi.fdiv 12) := by
  refine ⟨snapToScale_in_scale midi key, ?_⟩
  intro h
  obtain ⟨i, hi, heq, hglob, hstr⟩ := snapToScale_out_scale midi key h
  refine ⟨i, hi, heq, hglob, hstr, ?_⟩
  have hs := scaleOf_mem_bounds key ((scaleOf key).get ⟨i, hi⟩) (List.get_mem _ _ _)
  rw [heq]
  have h12 : ∀ a : Int, a.fdiv 12 = a / 12 := fun a => Int.fdiv_eq_ediv a (by norm_num)
  rw [h12, h12]
  omega

/-- C5 witness: pitch 60 is in the C-major scale and is returned unchanged. -/
theorem snapToScale_spec_witness : snapToScale 60 "C" = 60 :=
  (snapToScale_spec 60 "C").1 (by decide)

/-! ## C1: range of the pitches the offline quantizer assigns -/

lemma snapToScale_bounds (key : String) (midi : Int) (h1 : 48 ≤ midi) (h2 : midi ≤ 84) :
    48 ≤ snapToScale midi key ∧ snapToScale midi key ≤ 95
    ∧ (midi ≤ 83 → snapToScale midi key ≤ 84) := by
  by_cases hin : midi.tmod 12 ∈ scaleOf key
  · rw [snapToScale_in_scale midi key hin]
    exact ⟨h1, by omega, fun _ => by omega⟩
  · obtain ⟨i, hi, heq, -, -⟩ := snapToScale_out_scale midi key hin
    have hs := scaleOf_mem_bounds key ((scaleOf key).get ⟨i, hi⟩) (List.get_mem _ _ _)
    have h12 : midi.fdiv 12 = midi / 12 := Int.fdiv_eq_ediv midi (by norm_num)
    rw [heq, h12]
    refine ⟨by omega, by omega, fun h83 => by omega⟩

lemma insSortedNodup_mem : ∀ (l : List Int) (v x : Int), x ∈ insSortedNodup v l → x = v ∨ x ∈ l := by
  intro l
  induction l with
  | nil => intro v x hx; left; simpa [insSortedNodup] using hx
  | cons y ys ih =>
      intro v x hx
      by_cases h1 : v < y
      · rw [insSortedNodup, if_pos h1] at hx
        rcases List.mem_cons.mp hx with h | h
        · left; exact h
        · right; exact h
      · by_cases h2 : v = y
        · rw [insSortedNodup, if_neg h1, if_pos h2] at hx
          right; exact hx
        · rw [insSortedNodup, if_neg h1, if_neg h2] at hx
          rcases List.mem_cons.mp hx with h | h
          · right; rw [h]; exact List.mem_cons_self y ys
          · rcases ih v x h with h | h
            · left; exact h
            · right; exact List.mem_cons_of_mem y h

lemma sortedKeys_mem (vals : List Int) (x : Int) (h : x ∈ sortedKeys vals) : x ∈ vals := by
  have hgen : ∀ (l acc : List Int), x ∈ l.foldl (fun acc v => insSortedNodup v acc) acc →
      x ∈ acc ∨ x ∈ l := by
    intro l
    induction l with
    | nil => intro acc hx; left; exact hx
    | cons v vs ih =>
        intro acc hx
        rcases ih (insSortedNodup v acc) hx with h | h
        · rcases insSortedNodup_mem acc v x h with h | h
          · right; rw [h]; exact List.mem_cons_self v vs
          · left; exact h
        · right; exact List.mem_cons_of_mem v h
  rcases hgen vals [] h with h | h
  · cases h
  · exact h

lemma voteBest_mem (vals : List Int) :
    (voteBest vals).1 = -1 ∨ (voteBest vals).1 ∈ vals := by
  have hgen : ∀ (l : List Int) (acc : Int × Int),
      (l.foldl (voteStep vals) acc).1 = acc.1 ∨ (l.foldl (voteStep vals) acc).1 ∈ l := by
    intro l
    induction l with
    | nil => intro acc; left; rfl
    | cons k ks ih =>
        intro acc
        rw [List.foldl_cons]
        rcases ih (voteStep vals acc k) with h | h
        · by_cases hk : (vals.count k : Int) > acc.2
          · right
            rw [h, voteStep, if_pos hk]
            exact List.mem_cons_self k ks
          · left
            rw [h, voteStep, if_neg hk]
        · right; exact List.mem_cons_of_mem k h
  rcases hgen (sortedKeys vals) (-1, -1) with h | h
  · left; exact h
  · right; exact sortedKeys_mem vals _ h

lemma filterMap_id_mem (chunk : List (Option Int)) (v : Int) (h : v ∈ chunk.filterMap id) :
    some v ∈ chunk := by
  rw [List.mem_filterMap] at h
  obtain ⟨a, ha, hav⟩ := h
  cases a with
  | none => cases hav
  | some w => cases hav; exact ha

lemma chunkVote_some (key : String) (sens : ℚ) (chunk : List (Option Int)) (v : Int)
    (h : chunkVote key sens chunk = some v) :
    ∃ b : Int, some b ∈ chunk ∧ v = snapToScale b key := by
  unfold chunkVote at h
  split at h
  · cases h
  · split at h
    · rename_i hne
      refine ⟨(voteBest (chunk.filterMap id)).1, ?_, ?_⟩
      · rcases voteBest_mem (chunk.filterMap id) with hb | hb
        · exact absurd hb hne
        · exact filterMap_id_mem chunk _ hb
      · exact (Option.some.injEq _ _ ▸ h).symm
    · cases h

lemma chunksF_subset : ∀ (fuel : Nat) (n : Nat) (l c : List (Option Int)),
    c ∈ chunksF n fuel l → ∀ x ∈ c, x ∈ l := by
  intro fuel
  induction fuel with
  | zero =>
      intro n l c hc
      cases l with
      | nil => cases hc
      | cons y ys => cases hc
  | succ fuel ih =>
      intro n l c hc x hx
      cases l with
      | nil => cases hc
      | cons y ys =>
          rcases List.mem_cons.mp hc with h | h
          · subst h; exact List.mem_of_mem_take hx
          · exact List.mem_of_mem_drop (ih n _ c h x hx)

lemma gapFillAux_subset : ∀ (l : List (Option Int)) (prevv x : Option Int),
    x ∈ gapFillAux prevv l → x = prevv ∨ x ∈ l := by
  intro l
  induction l with
  | nil => intro prevv x hx; cases hx
  | cons c rest ih =>
      intro prevv x hx
      cases rest with
      | nil =>
          right
          simpa [gapFillAux] using hx
      | cons next rest2 =>
          by_cases hfill : c = none ∧ prevv ≠ none ∧ next ≠ none
          · rw [gapFillAux, if_pos hfill] at hx
            rcases List.mem_cons.mp hx with h | h
            · left; exact h
            · rcases ih prevv x h with h | h
              · left; exact h
              · right; exact List.mem_cons_of_mem c h
          · rw [gapFillAux, if_neg hfill] at hx
            rcases List.mem_cons.mp hx with h | h
            · right; rw [h]; exact List.mem_cons_self c _
            · rcases ih c x h with h | h
              · right; rw [h]; exact List.mem_cons_self c _
              · right; exact List.mem_cons_of_mem c h

lemma gapFill_subset (g : List (Option Int)) (x : Option Int) (h : x ∈ gapFill g) : x ∈ g := by
  cases g with
  | nil => cases h
  | cons c rest =>
      rcases List.mem_cons.mp h with h | h
      · rw [h]; exact List.mem_cons_self c rest
      · rcases gapFillAux_subset rest c x h with h | h
        · rw [h]; exact List.mem_cons_self c rest
        · exact List.mem_cons_of_mem c h

lemma tailAF_subset : ∀ (fuel : Nat) (l : List (Option Int)) (x : Option Int),
    x ∈ tailAF fuel l → x ∈ l := by
  intro fuel
  induction fuel with
  | zero => intro l x hx; exact hx
  | succ fuel ih =>
      intro l x hx
      cases l with
      | nil => exact hx
      | cons c rest =>
          cases c with
          | none =>
              rcases List.mem_cons.mp hx with h | h
              · rw [h]; exact List.mem_cons_self none rest
              · exact List.mem_cons_of_mem none (ih rest x h)
          | some p =>
              by_cases hc : (rest.drop (countLeading p rest)).head? = some none ∧
                  (countLeading p rest + 1 = 3 ∨ countLeading p rest + 1 = 7 ∨
                    countLeading p rest + 1 = 15)
              · rw [tailAF, if_pos hc] at hx
                rcases List.mem_append.mp hx with h | h
                · rw [List.eq_of_mem_replicate h]
                  exact List.mem_cons_self (some p) rest
                · rcases List.mem_cons.mp (ih _ x h) with h | h
                  · rw [h]; exact List.mem_cons_self (some p) rest
                  · rw [List.tail_drop] at h
                    exact List.mem_cons_of_mem (some p) (List.mem_of_mem_drop h)
              · rw [tailAF, if_neg hc] at hx
                rcases List.mem_append.mp hx with h | h
                · rw [List.eq_of_mem_replicate h]
                  exact List.mem_cons_self (some p) rest
                · exact List.mem_cons_of_mem (some p) (List.mem_of_mem_drop (ih _ x h))

lemma bucketGrid_mem (raw : List (Option Int)) (spg : Nat) (key : String) (sens : ℚ)
    (v : Int) (h : some v ∈ bucketGrid raw spg key sens) :
    ∃ b : Int, some b ∈ raw ∧ v = snapToScale b key := by
  unfold bucketGrid at h
  obtain ⟨chunk, hchunk, hv⟩ := List.mem_map.mp h
  obtain ⟨b, hb, hbv⟩ := chunkVote_some key sens chunk v hv
  exact ⟨b, chunksF_subset raw.length spg raw chunk hchunk _ hb, hbv⟩

/-- C1 counterexample: melody pitch 84 is inside `[48, 84]`, its class 0 is
not in the D-major pitch-class set and the nearest scale class (11, at circular
distance 1) is placed in the same `floor(84/12) = 7` octave, producing 95 —
outside `[48, 84]`. -/
theorem snapToScale_exceeds_range_counterexample :
    (48 ≤ (84 : Int) ∧ (84 : Int) ≤ 84) ∧ snapToScale 84 "D" = 95
    ∧ ¬(snapToScale 84 "D" ≤ 84) := by
  refine ⟨by norm_num, by decide, by decide⟩

/-- C1 amended: every pitch the offline quantizer assigns to a grid cell is in
`[48, 95]` (not `[48, 84]`): `snapToScale` keeps pitches of `[48, 83]` inside
`[48, 84]`, but may snap pitch 84 as high as 95, and the quantizer's grid cells
obtained from raw slice pitches in `[48, 84]` (the range the pipeline's range
lock guarantees) are therefore bounded by `[48, 95]`. -/
theorem quantizer_pitch_bounds (key : String) :
    (∀ midi : Int, 48 ≤ midi → midi ≤ 84 →
        48 ≤ snapToScale midi key ∧ snapToScale midi key ≤ 95
        ∧ (midi ≤ 83 → snapToScale midi key ≤ 84))
    ∧ (∀ (raw : List (Option Int)) (sampleRate sliceSize : ℚ) (q : Nat) (sens : ℚ),
        (∀ b : Int, some b ∈ raw → 48 ≤ b ∧ b ≤ 84) →
        ∀ v : Int, some v ∈ quantizeGrid raw sampleRate sliceSize key q sens →
          48 ≤ v ∧ v ≤ 95) := by
  constructor
  · intro midi h1 h2; exact snapToScale_bounds key midi h1 h2
  · intro raw sampleRate sliceSize q sens hraw v hv
    unfold quantizeGrid at hv
    have h1 : some v ∈ gapFill (bucketGrid raw _ key sens) :=
      tailAF_subset _ _ _ hv
    have h2 : some v ∈ bucketGrid raw _ key sens := gapFill_subset _ _ h1
    obtain ⟨b, hb, hbv⟩ := bucketGrid_mem raw _ key sens v h2
    obtain ⟨hb1, hb2⟩ := hraw b hb
    have := snapToScale_bounds key b hb1 hb2
    rw [hbv]
    exact ⟨this.1, this.2.1⟩

/-- C1 witness: `snapToScale 61 "C" = 60` stays within the stated bounds. -/
theorem quantizer_pitch_bounds_witness :
    48 ≤ snapToScale 61 "C" ∧ snapToScale 61 "C" ≤ 95 := by
  have h := (quantizer_pitch_bounds "C").1 61 (by norm_num) (by norm_num)
  exact ⟨h.1, h.2.1⟩

/-! ## C4: `detectKey` is the earliest maximal root -/

lemma detectKeyLoop_inv (chromas : List Int) :
    ∀ (l : List Nat) (bk : String) (mm : Int),
      (detectKeyLoop chromas l bk mm = bk ∧ ∀ r ∈ l, (matchCount chromas r : Int) ≤ mm)
      ∨ (∃ i, ∃ hi : i < l.length,
          detectKeyLoop chromas l bk mm = nameMap.getD (l.get ⟨i, hi⟩) "C"
          ∧ mm < (matchCount chromas (l.get ⟨i, hi⟩) : Int)
          ∧ (∀ j, ∀ hj : j < l.length,
              matchCount chromas (l.get ⟨j, hj⟩) ≤ matchCount chromas (l.get ⟨i, hi⟩))
          ∧ (∀ j, ∀ hj : j < l.length, j < i →
              matchCount chromas (l.get ⟨j, hj⟩) < matchCount chromas (l.get ⟨i, hi⟩))) := by
  intro l
  induction l with
  | nil => intro bk mm; left; exact ⟨rfl, by simp⟩
  | cons s ss ih =>
      intro bk mm
      by_cases hgt : (matchCount chromas s : Int) > mm
      · rw [show detectKeyLoop chromas (s :: ss) bk mm =
            detectKeyLoop chromas ss (nameMap.getD s "C") (matchCount chromas s) from by
          rw [detectKeyLoop, if_pos hgt]]
        rcases ih (nameMap.getD s "C") (matchCount chromas s) with ⟨heq, hall⟩ |
            ⟨i, hi, heq, hlt2, hglob, hstr⟩
        · right
          refine ⟨0, by simp, by simpa using heq, by simpa using hgt, ?_, ?_⟩
          · intro j hj
            cases j with
            | zero => simp
            | succ j =>
                have := hall (ss.get ⟨j, by simpa using hj⟩) (List.get_mem _ _ _)
                show matchCount chromas (ss.get ⟨j, _⟩) ≤ matchCount chromas s
                omega
          · intro j hj hj0; omega
        · right
          refine ⟨i + 1, by simpa using hi, by simpa using heq,
            by show mm < (matchCount chromas (ss.get ⟨i, hi⟩) : Int); omega, ?_, ?_⟩
          · intro j hj
            cases j with
            | zero =>
                show matchCount chromas s ≤ matchCount chromas (ss.get ⟨i, hi⟩)
                omega
            | succ j => exact hglob j (by simpa using hj)
          · intro j hj hji
            cases j with
            | zero =>
                show matchCount chromas s < matchCount chromas (ss.get ⟨i, hi⟩)
                omega
            | succ j => exact hstr j (by simpa using hj) (by omega)
      · rw [show detectKeyLoop chromas (s :: ss) bk mm =
            detectKeyLoop chromas ss bk mm from by
          rw [detectKeyLoop, if_neg hgt]]
        rcases ih bk mm with ⟨heq, hall⟩ | ⟨i, hi, heq, hlt2, hglob, hstr⟩
        · left
          refine ⟨heq, ?_⟩
          intro x hx
          rcases List.mem_cons.mp hx with hx | hx
          · subst hx; omega
          · exact hall x hx
        · right
          refine ⟨i + 1, by simpa using hi, by simpa using heq, hlt2, ?_, ?_⟩
          · intro j hj
            cases j with
            | zero =>
                show matchCount chromas s ≤ matchCount chromas (ss.get ⟨i, hi⟩)
                omega
            | succ j => exact hglob j (by simpa using hj)
          · intro j hj hji
            cases j with
            | zero =>
                show matchCount chromas s < matchCount chromas (ss.get ⟨i, hi⟩)
                omega
            | succ j => exact hstr j (by simpa using hj) (by omega)

lemma detectKey_argmax (ns : List Int) (h5 : ¬ns.length < 5) :
    ∃ r, r < 12 ∧ detectKey ns = nameMap.getD r "C"
      ∧ (∀ s, s < 12 →
          matchCount (ns.map (fun m => m.tmod 12)) s
            ≤ matchCount (ns.map (fun m => m.tmod 12)) r)
      ∧ (∀ s, s < r →
          matchCount (ns.map (fun m => m.tmod 12)) s
            < matchCount (ns.map (fun m => m.tmod 12)) r) := by
  have hdk : detectKey ns =
      detectKeyLoop (ns.map (fun m => m.tmod 12)) (List.range 12) "C" (-1) := by
    rw [detectKey, if_neg h5]
  rcases detectKeyLoop_inv (ns.map (fun m => m.tmod 12)) (List.range 12) "C" (-1) with
      ⟨-, hall⟩ | ⟨i, hi, heq, -, hglob, hstr⟩
  · exfalso
    have h0 : (0 : Nat) ∈ List.range 12 := by decide
    have := hall 0 h0
    omega
  · have hlen : (List.range 12).length = 12 := by simp
    have hget : ∀ (j : Nat) (hj : j < (List.range 12).length),
        (List.range 12).get ⟨j, hj⟩ = j := by
      intro j hj
      simp [List.get_eq_getElem]
    refine ⟨i, by omega, ?_, ?_, ?_⟩
    · rw [hdk, heq, hget i hi]
    · intro s hs
      have := hglob s (by omega)
      rwa [hget s (by omega), hget i hi] at this
    · intro s hs
      have := hstr s (by omega) hs
      rwa [hget s (by omega), hget i hi] at this

lemma matchCount_full (ns : List Int) (r : Nat)
    (h : ∀ m ∈ ns, m.tmod 12 ∈ scaleOfRoot r) :
    matchCount (ns.map (fun m => m.tmod 12)) r = (ns.map (fun m => m.tmod 12)).length := by
  apply List.countP_eq_length.mpr
  intro c hc
  obtain ⟨m, hm, hmc⟩ := List.mem_map.mp hc
  rw [← hmc]
  exact decide_eq_true (h m hm)

lemma g_scale_not_subset : ∀ r, r < 12 → ¬r = 7 →
    ∃ c ∈ scaleOfRoot 7, ¬c ∈ scaleOfRoot r := by decide

/-- C4 counterexample: the input `[7,7,7,7,7]` is drawn only from G-major
pitch classes, yet `detectKey` returns `"C"` (class 7 is also in the C-major
scale, so root 0 reaches the maximal count first and G cannot strictly exceed
it). -/
theorem detectKey_g_subset_counterexample :
    detectKey [7, 7, 7, 7, 7] = "C"
    ∧ (∀ m ∈ ([7, 7, 7, 7, 7] : List Int), m.tmod 12 ∈ scaleOfRoot 7)
    ∧ ("C" : String) ≠ "G" := ⟨by decide, by decide, by decide⟩

/-- C4 amended: `detectKey` defaults to `"C"` below 5 notes; otherwise it
returns the root of maximal match count with ties broken by the lowest root
(a later root must strictly exceed the running best); inputs lying in C-major
classes yield `"C"`, and inputs whose classes lie in *and cover all of* the
G-major class set yield `"G"` (covering is required: without it the claim
fails, see the counterexample). -/
theorem detectKey_spec :
    (∀ ns : List Int, ns.length < 5 → detectKey ns = "C")
    ∧ (∀ ns : List Int, 5 ≤ ns.length →
        ∃ r, r < 12 ∧ detectKey ns = nameMap.getD r "C"
          ∧ (∀ s, s < 12 →
              matchCount (ns.map (fun m => m.tmod 12)) s
                ≤ matchCount (ns.map (fun m => m.tmod 12)) r)
          ∧ (∀ s, s < r →
              matchCount (ns.map (fun m => m.tmod 12)) s
                < matchCount (ns.map (fun m => m.tmod 12)) r))
    ∧ (∀ ns : List Int, (∀ m ∈ ns, m.tmod 12 ∈ scaleOfRoot 0) → detectKey ns = "C")
    ∧ (∀ ns : List Int, (∀ m ∈ ns, m.tmod 12 ∈ scaleOfRoot 7) →
        (∀ c ∈ scaleOfRoot 7, c ∈ ns.map (fun m => m.tmod 12)) →
        detectKey ns = "G") := by
  refine ⟨?_, ?_, ?_, ?_⟩
  · intro ns h5
    rw [detectKey, if_pos h5]
  · intro ns h5
    exact detectKey_argmax ns (by omega)
  · intro ns hC
    by_cases h5 : ns.length < 5
    · rw [detectKey, if_pos h5]
    · obtain ⟨r, hr12, heq, hglob, hstr⟩ := detectKey_argmax ns h5
      by_cases hr0 : r = 0
      · subst hr0; exact heq
      · exfalso
        have h0 := matchCount_full ns 0 hC
        have h1 := hstr 0 (by omega)
        have h2 : matchCount (ns.map (fun m => m.tmod 12)) r
            ≤ (ns.map (fun m => m.tmod 12)).length := List.countP_le_length _
        omega
  · intro ns h7 hcov
    have hcard : ((scaleOfRoot 7).toFinset.card = 7) := by decide
    have hsub : (scaleOfRoot 7).toFinset ⊆ (ns.map (fun m => m.tmod 12)).toFinset := by
      intro c hc
      rw [List.mem_toFinset] at hc ⊢
      exact hcov c hc
    have hlen : 7 ≤ ns.length := by
      have h1 := Finset.card_le_card hsub
      have h2 := List.toFinset_card_le (ns.map (fun m => m.tmod 12))
      rw [hcard] at h1
      rw [List.length_map] at h2
      omega
    obtain ⟨r, hr12, heq, hglob, hstr⟩ := detectKey_argmax ns (by omega)
    have hfull := matchCount_full ns 7 h7
    by_cases hr7 : r = 7
    · subst hr7; exact heq
    · exfalso
      have hrfull : matchCount (ns.map (fun m => m.tmod 12)) r
          = (ns.map (fun m => m.tmod 12)).length := by
        have h1 := hglob 7 (by omega)
        have h2 : matchCount (ns.map (fun m => m.tmod 12)) r
            ≤ (ns.map (fun m => m.tmod 12)).length := List.countP_le_length _
        omega
      have hallr : ∀ c ∈ ns.map (fun m => m.tmod 12), c ∈ scaleOfRoot r := by
        intro c hc
        have := List.countP_eq_length.mp hrfull c hc
        exact of_decide_eq_true this
      obtain ⟨c, hc7, hcr⟩ := g_scale_not_subset r hr12 hr7
      exact hcr (hallr c (hcov c hc7))

/-- C4 witness: a five-note C-major input yields `"C"`. -/
theorem detectKey_spec_witness : detectKey [60, 62, 64, 65, 67] = "C" :=
  detectKey_spec.2.2.1 [60, 62, 64, 65, 67] (by decide)

/-! ## C6: gap filling -/

lemma gapFillAux_length : ∀ (l : List (Option Int)) (prevv : Option Int),
    (gapFillAux prevv l).length = l.length := by
  intro l
  induction l with
  | nil => intro prevv; rfl
  | cons c rest ih =>
      intro prevv
      cases rest with
      | nil => rfl
      | cons next rest2 =>
          by_cases hfill : c = none ∧ prevv ≠ none ∧ next ≠ none
          · rw [gapFillAux, if_pos hfill]
            simp [ih prevv]
          · rw [gapFillAux, if_neg hfill]
            simp [ih c]

lemma gapFillAux_head (x : Option Int) (xs : List (Option Int)) (p : Option Int) :
    ∃ ys, gapFillAux p (x :: xs) = x :: ys
      ∨ (gapFillAux p (x :: xs) = p :: ys ∧ x = none ∧ p ≠ none) := by
  cases xs with
  | nil => exact ⟨[], Or.inl rfl⟩
  | cons next rest2 =>
      by_cases hfill : x = none ∧ p ≠ none ∧ next ≠ none
      · exact ⟨gapFillAux p (next :: rest2), Or.inr ⟨by rw [gapFillAux, if_pos hfill],
          hfill.1, hfill.2.1⟩⟩
      · exact ⟨gapFillAux x (next :: rest2), Or.inl (by rw [gapFillAux, if_neg hfill])⟩

lemma noIso_gapFillAux : ∀ (l : List (Option Int)) (prevv : Option Int),
    noIso (prevv :: gapFillAux prevv l) := by
  intro l
  induction l with
  | nil => intro prevv; trivial
  | cons c rest ih =>
      intro prevv
      cases rest with
      | nil => trivial
      | cons next rest2 =>
          by_cases hfill : c = none ∧ prevv ≠ none ∧ next ≠ none
          · rw [gapFillAux, if_pos hfill]
            obtain ⟨ys, hy⟩ := gapFillAux_head next rest2 prevv
            have htail : noIso (prevv :: gapFillAux prevv (next :: rest2)) := ih prevv
            rcases hy with hy | ⟨hy, -, -⟩ <;>
              · rw [hy] at htail ⊢
                exact ⟨fun hcon => hfill.2.1 hcon.1, htail⟩
          · rw [gapFillAux, if_neg hfill]
            obtain ⟨ys, hy⟩ := gapFillAux_head next rest2 c
            have htail : noIso (c :: gapFillAux c (next :: rest2)) := ih c
            push_neg at hfill
            rcases hy with hy | ⟨hy, hnext, hcnone⟩
            · rw [hy] at htail ⊢
              refine ⟨fun hcon => ?_, htail⟩
              rcases hcon with ⟨hc, hp, hnext⟩
              exact hnext (hfill hc hp)
            · rw [hy] at htail ⊢
              refine ⟨fun hcon => hcnone hcon.1, htail⟩

lemma gapFillAux_keep_some : ∀ (l : List (Option Int)) (prevv : Option Int) (i : Nat) (v : Int),
    l[i]? = some (some v) → (gapFillAux prevv l)[i]? = some (some v) := by
  intro l
  induction l with
  | nil => intro prevv i v h; cases i <;> cases h
  | cons c rest ih =>
      intro prevv i v h
      cases rest with
      | nil =>
          cases i with
          | zero => exact h
          | succ j => rw [List.getElem?_cons_succ] at h; cases j <;> cases h
      | cons next rest2 =>
          by_cases hfill : c = none ∧ prevv ≠ none ∧ next ≠ none
          · rw [gapFillAux, if_pos hfill]
            cases i with
            | zero =>
                rw [List.getElem?_cons_zero] at h
                exact absurd (Option.some.injEq _ _ ▸ h) (by simp [hfill.1])
            | succ j =>
                rw [List.getElem?_cons_succ] at h ⊢
                exact ih prevv j v h
          · rw [gapFillAux, if_neg hfill]
            cases i with
            | zero => rw [List.getElem?_cons_zero] at h ⊢; exact h
            | succ j =>
                rw [List.getElem?_cons_succ] at h ⊢
                exact ih c j v h

lemma gapFillAux_fill : ∀ (l : List (Option Int)) (prevv : Option Int) (i : Nat),
    l[i]? = some none →
    (gapFillAux prevv l)[i]? = some none
    ∨ (gapFillAux prevv l)[i]? = (prevv :: gapFillAux prevv l)[i]? := by
  intro l
  induction l with
  | nil => intro prevv i h; cases i <;> cases h
  | cons c rest ih =>
      intro prevv i h
      cases rest with
      | nil =>
          cases i with
          | zero => left; exact h
          | succ j => rw [List.getElem?_cons_succ] at h; cases j <;> cases h
      | cons next rest2 =>
          by_cases hfill : c = none ∧ prevv ≠ none ∧ next ≠ none
          · rw [gapFillAux, if_pos hfill]
            cases i with
            | zero => right; simp
            | succ j =>
                rw [List.getElem?_cons_succ] at h
                rcases ih prevv j h with h2 | h2
                · left; rw [List.getElem?_cons_succ]; exact h2
                · right
                  rw [List.getElem?_cons_succ, List.getElem?_cons_succ]
                  exact h2
          · rw [gapFillAux, if_neg hfill]
            cases i with
            | zero => left; rw [List.getElem?_cons_zero] at h ⊢; exact h
            | succ j =>
                rw [List.getElem?_cons_succ] at h
                rcases ih c j h with h2 | h2
                · left; rw [List.getElem?_cons_succ]; exact h2
                · right
                  rw [List.getElem?_cons_succ, List.getElem?_cons_succ]
                  exact h2

/-- C6: after the gap-filling pass, no interior silent cell has non-silent
cells on both sides; non-silent cells are unchanged, and a cell it converted
(necessarily at index ≥ 1) now carries the pitch of its left neighbour in the
output grid — regardless of whether the two original neighbours agreed. -/
theorem gapFill_spec (g : List (Option Int)) :
    (gapFill g).length = g.length
    ∧ noIso (gapFill g)
    ∧ (∀ (i : Nat) (v : Int), g[i]? = some (some v) → (gapFill g)[i]? = some (some v))
    ∧ (∀ i : Nat, g[i]? = some none →
        (gapFill g)[i]? = some none
        ∨ (1 ≤ i ∧ (gapFill g)[i]? = (gapFill g)[i - 1]?)) := by
  cases g with
  | nil =>
      refine ⟨rfl, trivial, ?_, ?_⟩
      · intro i v h; simp at h
      · intro i h; simp at h
  | cons c rest =>
      refine ⟨by simp [gapFill, gapFillAux_length], noIso_gapFillAux rest c, ?_, ?_⟩
      · intro i v h
        cases i with
        | zero =>
            rw [List.getElem?_cons_zero] at h
            show (c :: gapFillAux c rest)[0]? = some (some v)
            rw [List.getElem?_cons_zero]; exact h
        | succ j =>
            rw [List.getElem?_cons_succ] at h
            show (c :: gapFillAux c rest)[j + 1]? = some (some v)
            rw [List.getElem?_cons_succ]
            exact gapFillAux_keep_some rest c j v h
      · intro i h
        cases i with
        | zero =>
            left
            rw [List.getElem?_cons_zero] at h
            show (c :: gapFillAux c rest)[0]? = some none
            rw [List.getElem?_cons_zero]; exact h
        | succ j =>
            rw [List.getElem?_cons_succ] at h
            rcases gapFillAux_fill rest c j h with h2 | h2
            · left
              show (c :: gapFillAux c rest)[j + 1]? = some none
              rw [List.getElem?_cons_succ]; exact h2
            · right
              refine ⟨by omega, ?_⟩
              show (c :: gapFillAux c rest)[j + 1]? = (c :: gapFillAux c rest)[j + 1 - 1]?
              rw [List.getElem?_cons_succ]
              simpa using h2

/-- C6 witness: in `[60, none, 62]` the silent middle cell is filled and ends
up equal to its left neighbour. -/
theorem gapFill_spec_witness :
    (gapFill [some 60, none, some 62])[1]? = (gapFill [some 60, none, some 62])[0]? := by
  have h := (gapFill_spec [some 60, none, some 62]).2.2.2 1 (by decide)
  rcases h with h | h
  · exact absurd h (by decide)
  · exact h.2

/-! ## C2: tail extension -/

lemma tailAF_irrel : ∀ (f1 f2 : Nat) (l : List (Option Int)),
    l.length ≤ f1 → l.length ≤ f2 → tailAF f1 l = tailAF f2 l := by
  intro f1
  induction f1 with
  | zero =>
      intro f2 l h1 h2
      have : l = [] := List.length_eq_zero.mp (by omega)
      subst this
      cases f2 <;> rfl
  | succ f1 ih =>
      intro f2 l h1 h2
      cases l with
      | nil => cases f2 <;> rfl
      | cons c rest =>
          cases f2 with
          | zero => simp at h2
          | succ f2 =>
              cases c with
              | none =>
                  show none :: tailAF f1 rest = none :: tailAF f2 rest
                  rw [ih f2 rest (by simpa using h1) (by simpa using h2)]
              | some p =>
                  rw [tailAF, tailAF]
                  by_cases hc : (rest.drop (countLeading p rest)).head? = some none ∧
                      (countLeading p rest + 1 = 3 ∨ countLeading p rest + 1 = 7 ∨
                        countLeading p rest + 1 = 15)
                  · rw [if_pos hc, if_pos hc]
                    have hne : rest.drop (countLeading p rest) ≠ [] := by
                      intro hemp
                      rw [hemp] at hc
                      simp at hc
                    have hlen : 0 < (rest.drop (countLeading p rest)).length :=
                      List.length_pos.mpr hne
                    have hdl : (rest.drop (countLeading p rest)).length =
                        rest.length - countLeading p rest := by simp
                    have harg : (some p :: (rest.drop (countLeading p rest)).tail).length
                        ≤ rest.length := by
                      simp only [List.length_cons, List.length_tail]
                      omega
                    rw [ih f2 _ (by simp at h1 ⊢; omega) (by simp at h2 ⊢; omega)]
                  · rw [if_neg hc, if_neg hc]
                    have harg : (rest.drop (countLeading p rest)).length ≤ rest.length := by
                      simp
                    rw [ih f2 _ (by simp at h1 ⊢; omega) (by simp at h2 ⊢; omega)]

lemma tailExtend_none_cons (t : List (Option Int)) :
    tailExtend (none :: t) = none :: tailExtend t := rfl

lemma countLeading_of_head (p : Int) (t : List (Option Int))
    (ht : t.head? ≠ some (some p)) : countLeading p t = 0 := by
  cases t with
  | nil => rfl
  | cons x ts =>
      have : x ≠ some p := fun h => ht (by rw [h]; rfl)
      rw [countLeading, if_neg this]

lemma tailExtend_some_single (p : Int) (t : List (Option Int))
    (ht : t.head? ≠ some (some p)) :
    tailExtend (some p :: t) = some p :: tailExtend t := by
  show tailAF (t.length + 1) (some p :: t) = some p :: tailExtend t
  rw [tailAF, countLeading_of_head p t ht]
  rw [if_neg (by simp)]
  rw [List.drop_zero]
  rfl

lemma countLeading_replicate (p : Int) (k : Nat) (t : List (Option Int))
    (ht : t.head? ≠ some (some p)) :
    countLeading p (List.replicate k (some p) ++ t) = k := by
  induction k with
  | zero => simpa using countLeading_of_head p t ht
  | succ k ih =>
      rw [List.replicate_succ, List.cons_append, countLeading, if_pos rfl, ih]
      omega

lemma drop_replicate (p : Int) (k : Nat) (t : List (Option Int)) :
    (List.replicate k (some p) ++ t).drop k = t := by
  have h := List.drop_left (List.replicate k (some p)) t
  rwa [List.length_replicate] at h

/-- C2 counterexample: on the grid `[p,p,p,·,·]` (a run of length 3 followed
by *two* consecutive silent cells) the smoother — gap filling leaves the grid
unchanged — still fires the tail extension, converting the first silent cell. -/
theorem tail_extension_two_silent_counterexample :
    gapFill [some 60, some 60, some 60, none, none] =
      [some 60, some 60, some 60, none, none]
    ∧ tailExtend (gapFill [some 60, some 60, some 60, none, none]) =
      [some 60, some 60, some 60, some 60, none] := ⟨by decide, by decide⟩

/-- C2 amended: when a maximal run of pitch `p` of length `n ≥ 1` is followed
by a silent cell (whatever comes after that silent cell — in a gap-filled grid
the cell after it is silent or absent), the scan converts that single silent
cell to `p` exactly when `n` is 3, 7 or 15 (in particular never when `n = 4`),
and never converts more than that one cell for the run: the remainder of the
grid is processed independently. -/
theorem tail_extension_trigger (n : Nat) (p : Int) (t : List (Option Int))
    (hn : 1 ≤ n) (ht : t.head? ≠ some (some p)) :
    tailExtend (List.replicate n (some p) ++ none :: t) =
      if n = 3 ∨ n = 7 ∨ n = 15 then List.replicate (n + 1) (some p) ++ tailExtend t
      else List.replicate n (some p) ++ none :: tailExtend t := by
  obtain ⟨m, rfl⟩ : ∃ m, n = m + 1 := ⟨n - 1, by omega⟩
  have hL : List.replicate (m + 1) (some p) ++ none :: t
      = some p :: (List.replicate m (some p) ++ none :: t) := by
    rw [List.replicate_succ]; rfl
  have hcl : countLeading p (List.replicate m (some p) ++ none :: t) = m :=
    countLeading_replicate p m (none :: t) (by simp)
  have hdrop : (List.replicate m (some p) ++ none :: t).drop m = none :: t :=
    drop_replicate p m (none :: t)
  have hRlen : (List.replicate m (some p) ++ none :: t).length = m + 1 + t.length := by
    simp; omega
  unfold tailExtend
  rw [hL]
  show tailAF ((List.replicate m (some p) ++ none :: t).length + 1)
      (some p :: (List.replicate m (some p) ++ none :: t)) = _
  rw [tailAF, hcl, hdrop]
  by_cases h3 : m + 1 = 3 ∨ m + 1 = 7 ∨ m + 1 = 15
  · rw [if_pos ⟨rfl, h3⟩, if_pos h3]
    have htail : (none :: t).tail = t := rfl
    rw [htail]
    have hirr : tailAF (List.replicate m (some p) ++ none :: t).length (some p :: t)
        = tailExtend (some p :: t) := by
      apply tailAF_irrel
      · rw [hRlen]; simp; omega
      · rfl
    rw [hirr, tailExtend_some_single p t ht]
    rw [show List.replicate (m + 1 + 1) (some p)
        = List.replicate (m + 1) (some p) ++ [some p] from List.replicate_succ' _ _]
    simp
    rfl
  · rw [if_neg (fun hcon => h3 hcon.2), if_neg h3]
    have hirr : tailAF (List.replicate m (some p) ++ none :: t).length (none :: t)
        = tailExtend (none :: t) := by
      apply tailAF_irrel
      · rw [hRlen]; simp; omega
      · rfl
    rw [hirr, tailExtend_none_cons]
    rfl

/-- C2 witness: a run of length 3 followed by a silent cell is completed to a
run of length 4 and nothing further is touched. -/
theorem tail_extension_trigger_witness :
    tailExtend [some 60, some 60, some 60, none, some 62] =
      [some 60, some 60, some 60, some 60, some 62] := by
  have h := tail_extension_trigger 3 60 [some 62] (by norm_num) (by decide)
  simp only [show ((3 : Nat) = 3 ∨ (3 : Nat) = 7 ∨ (3 : Nat) = 15) from Or.inl rfl,
    if_pos] at h
  rw [show List.replicate 3 (some (60 : Int)) ++ none :: [some 62]
      = [some 60, some 60, some 60, none, some 62] from by decide] at h
  rw [h]
  decide

/-! ## C9: the real-time silence guard -/

/-- C9 counterexample: a frame whose confidence *equals* the sensitivity-derived
threshold (hence is "not above" it) with an in-band frequency is NOT treated as
silence by the stabilizer — the guard is the strict `clarity < baseClarity` —
and it mutates the melody buffer (a token is appended), contradicting the
claimed classification "confidence not above the threshold ⇒ silence". -/
theorem rt_boundary_clarity_counterexample :
    ((85 : ℚ) ≤ 440 ∧ (440 : ℚ) ≤ 1200)
    ∧ ¬(baseClarity (1/2) > baseClarity (1/2))
    ∧ (rtStep 8 (baseClarity (1/2)) (fun _ => 69) stBoundary
        (440, baseClarity (1/2))).mel = ["A"]
    ∧ stBoundary.mel = [] := by
  refine ⟨by norm_num, by norm_num, ?_, rfl⟩
  have hlock : rangeLock 69 = 69 := by
    rw [rangeLock, rangeUp, if_neg (by norm_num), rangeDown, if_neg (by norm_num)]
  have hstep : rtStep 8 (baseClarity (1/2)) (fun _ => 69) stBoundary
      (440, baseClarity (1/2)) = rtEmit 8 stBoundary 69 := by
    rw [rtStep]
    norm_num [stBoundary, hlock]
  rw [hstep]
  decide

/-- C9 amended: a frame with frequency outside `[85, 1200]` Hz or with
confidence *strictly below* the threshold resets the detection state (last
pitch, stable-frame counter, continuity flag) and leaves the melody and
harmony buffers, the recorded pitches and the grid-unit counter unchanged. -/
theorem rt_silence_resets (q : Nat) (base : ℚ) (f2m : ℚ → Int) (st : RTState)
    (pitch clarity : ℚ) (h : pitch < 85 ∨ 1200 < pitch ∨ clarity < base) :
    rtStep q base f2m st (pitch, clarity) =
      { st with lastMidi := none, stableFrames := 0, isContinuous := false } := by
  simp only [rtStep]
  rw [if_pos h]

/-- C9 witness: an out-of-band 50 Hz frame resets the detection state. -/
theorem rt_silence_resets_witness :
    rtStep 8 (1/2) (fun _ => 0) rtInit (50, 1) =
      { rtInit with lastMidi := none, stableFrames := 0, isContinuous := false } :=
  rt_silence_resets 8 (1/2) (fun _ => 0) rtInit 50 1 (Or.inl (by norm_num))

/-! ## C10: melody/harmony buffers stay aligned (length, bars, rests) -/

lemma abcNotes_headOK : ∀ idx : Nat, headOK (abcNotes.getD idx "C") = true := by
  intro idx
  by_cases h : idx < 12
  · interval_cases idx <;> decide
  · rw [List.getD_eq_default _ _ (show abcNotes.length ≤ idx from by
      rw [show abcNotes.length = 12 from rfl]; omega)]
    decide

lemma headOK_elim (s : String) (h : headOK s = true) :
    ∃ c cs, s.data = c :: cs ∧ c ≠ '|' ∧ c ≠ 'z' ∧ c ≠ 'u'
      ∧ c.toLower ≠ '|' ∧ c.toLower ≠ 'z' ∧ c.toLower ≠ 'u' := by
  unfold headOK at h
  cases hd : s.data with
  | nil => rw [hd] at h; simp at h
  | cons c cs =>
      rw [hd] at h
      simp at h
      refine ⟨c, cs, rfl, ?_, ?_, ?_, ?_, ?_, ?_⟩ <;> tauto

lemma mk_data (l : List Char) : (String.mk l).data = l := rfl

lemma lowerStr_data (s : String) : (lowerStr s).data = s.data.map Char.toLower := rfl

lemma append_data (s t : String) (c : Char) (cs : List Char) (h : s.data = c :: cs) :
    (s ++ t).data = c :: (cs ++ t.data) := by
  rw [String.data_append, h]; rfl

lemma midiToAbc_head (m : Int) :
    ∃ c cs, (midiToAbc m).data = c :: cs ∧ c ≠ '|' ∧ c ≠ 'z' ∧ c ≠ 'u' := by
  obtain ⟨c, cs, hdata, h1, h2, h3, h4, h5, h6⟩ :=
    headOK_elim _ (abcNotes_headOK ((max 0 (min 127 m)).tmod 12).toNat)
  simp only [midiToAbc]
  split
  · exact ⟨c, cs, hdata, h1, h2, h3⟩
  · split
    · exact ⟨c, cs ++ _, append_data _ _ c cs hdata, h1, h2, h3⟩
    · split
      · refine ⟨c.toLower, cs.map Char.toLower, ?_, h4, h5, h6⟩
        rw [lowerStr_data, hdata]
        rfl
      · exact ⟨c.toLower, _, append_data _ _ c.toLower (cs.map Char.toLower)
          (by rw [lowerStr_data, hdata]; rfl), h4, h5, h6⟩

lemma safeAbc_midiToAbc (p : Int) : safeAbc (midiToAbc p) = midiToAbc p := by
  obtain ⟨c, cs, hdata, h1, h2, h3⟩ := midiToAbc_head p
  rw [safeAbc, if_pos]
  constructor
  · intro h
    rw [h] at hdata
    cases hdata
  · intro h
    rw [h] at hdata
    have hu : ("undefined" : String).data
        = 'u' :: ['n', 'd', 'e', 'f', 'i', 'n', 'e', 'd'] := rfl
    rw [hu] at hdata
    injection hdata with hc _
    exact h3 hc.symm

lemma tok_head_props (s : String) (c : Char) (cs : List Char) (hdata : s.data = c :: cs)
    (h1 : c ≠ '|') (h2 : c ≠ 'z') : ¬isBarTok s ∧ ¬isRestTok s := by
  constructor
  · intro hbar
    rw [isBarTok] at hbar
    rw [hbar] at hdata
    have hb : ("|" : String).data = ['|'] := rfl
    rw [hb] at hdata
    injection hdata with hc _
    exact h1 hc.symm
  · intro hrest
    rw [isRestTok, hdata] at hrest
    injection hrest with hc
    exact h2 hc

lemma tok_align (q : Nat) (t : Tok) :
    (isBarTok (melTokStr q t) ↔ isBarTok (harTokStr q t))
    ∧ (isRestTok (melTokStr q t) ↔ isRestTok (harTokStr q t)) := by
  cases t with
  | bar => exact ⟨Iff.rfl, Iff.rfl⟩
  | run p d =>
      cases p with
      | none => exact ⟨Iff.rfl, Iff.rfl⟩
      | some v =>
          obtain ⟨c1, cs1, hd1, hb1, hz1, -⟩ := midiToAbc_head v
          obtain ⟨c2, cs2, hd2, hb2, hz2, -⟩ := midiToAbc_head (harmonyOf v)
          have e1 : melTokStr q (Tok.run (some v) d) = midiToAbc v ++ getDurStr q d := by
            rw [melTokStr, safeAbc_midiToAbc]
          have e2 : harTokStr q (Tok.run (some v) d)
              = midiToAbc (harmonyOf v) ++ getDurStr q d := by
            rw [harTokStr, safeAbc_midiToAbc]
          have p1 := tok_head_props _ c1 (cs1 ++ (getDurStr q d).data)
            (append_data _ _ c1 cs1 hd1) hb1 hz1
          have p2 := tok_head_props _ c2 (cs2 ++ (getDurStr q d).data)
            (append_data _ _ c2 cs2 hd2) hb2 hz2
          rw [e1, e2]
          exact ⟨⟨fun hh => absurd hh p1.1, fun hh => absurd hh p2.1⟩,
                 ⟨fun hh => absurd hh p1.2, fun hh => absurd hh p2.2⟩⟩

lemma aligned_map (q : Nat) (toks : List Tok) :
    Aligned (toks.map (melTokStr q)) (toks.map (harTokStr q)) := by
  refine ⟨by simp, ?_⟩
  intro i
  rw [List.getD_eq_getElem?_getD, List.getD_eq_getElem?_getD,
    List.getElem?_map, List.getElem?_map]
  cases htok : toks[i]? with
  | none => exact ⟨Iff.rfl, Iff.rfl⟩
  | some t =>
      simp only [Option.map_some', Option.getD_some]
      exact tok_align q t

lemma aligned_nil : Aligned [] [] := by
  refine ⟨rfl, ?_⟩
  intro i
  exact ⟨Iff.rfl, Iff.rfl⟩

lemma aligned_append_single (mel har : List String) (h : Aligned mel har) (X Y : String)
    (hb : isBarTok X ↔ isBarTok Y) (hr : isRestTok X ↔ isRestTok Y) :
    Aligned (mel ++ [X]) (har ++ [Y]) := by
  obtain ⟨hlen, hidx⟩ := h
  refine ⟨by simp [hlen], ?_⟩
  intro i
  rw [List.getD_eq_getElem?_getD, List.getD_eq_getElem?_getD]
  by_cases hi : i < mel.length
  · have h1 : (mel ++ [X])[i]? = mel[i]? := by
      rw [List.getElem?_append]
      simp [hi]
    have h2 : (har ++ [Y])[i]? = har[i]? := by
      rw [List.getElem?_append]
      simp [show i < har.length from hlen ▸ hi]
    rw [h1, h2, ← List.getD_eq_getElem?_getD, ← List.getD_eq_getElem?_getD]
    exact hidx i
  · by_cases hie : i = mel.length
    · subst hie
      have h1 : (mel ++ [X])[mel.length]? = some X := by
        rw [List.getElem?_append_right (le_refl _)]
        simp
      have h2 : (har ++ [Y])[mel.length]? = some Y := by
        rw [List.getElem?_append_right (le_of_eq hlen.symm)]
        rw [hlen]
        simp
      rw [h1, h2]
      exact ⟨hb, hr⟩
    · have h1 : (mel ++ [X])[i]? = none := List.getElem?_eq_none (by simp; omega)
      have h2 : (har ++ [Y])[i]? = none := List.getElem?_eq_none (by simp; omega)
      rw [h1, h2]
      exact ⟨Iff.rfl, Iff.rfl⟩

lemma aligned_set (mel har : List String) (h : Aligned mel har) (li : Nat) (X Y : String)
    (hb : isBarTok X ↔ isBarTok Y) (hr : isRestTok X ↔ isRestTok Y) :
    Aligned (mel.set li X) (har.set li Y) := by
  obtain ⟨hlen, hidx⟩ := h
  refine ⟨by simp [hlen], ?_⟩
  intro i
  rw [List.getD_eq_getElem?_getD, List.getD_eq_getElem?_getD]
  by_cases hil : i = li
  · subst hil
    by_cases hlt : i < mel.length
    · rw [List.getElem?_set_eq_of_lt X hlt, List.getElem?_set_eq_of_lt Y (hlen ▸ hlt)]
      exact ⟨hb, hr⟩
    · rw [List.set_eq_of_length_le (by omega), List.set_eq_of_length_le (by omega),
        ← List.getD_eq_getElem?_getD, ← List.getD_eq_getElem?_getD]
      exact hidx i
  · rw [List.getElem?_set_ne (by omega), List.getElem?_set_ne (by omega),
      ← List.getD_eq_getElem?_getD, ← List.getD_eq_getElem?_getD]
    exact hidx i

lemma rtEmit_aligned (q : Nat) (st : RTState) (midi : Int)
    (h : Aligned st.mel st.har) :
    Aligned (rtEmit q st midi).mel (rtEmit q st midi).har := by
  obtain ⟨c1, cs1, hd1, hb1, hz1, -⟩ := midiToAbc_head midi
  obtain ⟨c2, cs2, hd2, hb2, hz2, -⟩ := midiToAbc_head (harmonyOf midi)
  have p1 := tok_head_props _ c1 (cs1 ++ (natToStr ((trailingNat
      ((st.mel.getLast?).getD "")).getD 1 + 1)).data)
    (append_data _ _ c1 cs1 hd1) hb1 hz1
  have p2 := tok_head_props _ c2 (cs2 ++ (natToStr ((trailingNat
      (st.har.getD (st.mel.length - 1) "")).getD 1 + 1)).data)
    (append_data _ _ c2 cs2 hd2) hb2 hz2
  have p3 := tok_head_props _ c1 cs1 hd1 hb1 hz1
  have p4 := tok_head_props _ c2 cs2 hd2 hb2 hz2
  rw [rtEmit]
  split
  · show Aligned (_ ++ _) (_ ++ _)
    by_cases hbar : q ≤ st.gridUnits + 1
    · rw [if_pos hbar]
      apply aligned_append_single _ _ _ _ _ Iff.rfl Iff.rfl
      exact aligned_set _ _ h _ _ _
        ⟨fun hh => absurd hh p1.1, fun hh => absurd hh p2.1⟩
        ⟨fun hh => absurd hh p1.2, fun hh => absurd hh p2.2⟩
    · rw [if_neg hbar, List.append_nil, List.append_nil]
      exact aligned_set _ _ h _ _ _
        ⟨fun hh => absurd hh p1.1, fun hh => absurd hh p2.1⟩
        ⟨fun hh => absurd hh p1.2, fun hh => absurd hh p2.2⟩
  · show Aligned (_ ++ _) (_ ++ _)
    have hfirst : Aligned (st.mel ++ [midiToAbc midi])
        (st.har ++ [midiToAbc (harmonyOf midi)]) :=
      aligned_append_single _ _ h _ _
        ⟨fun hh => absurd hh p3.1, fun hh => absurd hh p4.1⟩
        ⟨fun hh => absurd hh p3.2, fun hh => absurd hh p4.2⟩
    by_cases hbar : q ≤ st.gridUnits + 1
    · rw [if_pos hbar]
      exact aligned_append_single _ _ hfirst _ _ Iff.rfl Iff.rfl
    · rw [if_neg hbar, List.append_nil, List.append_nil]
      exact hfirst

lemma rtStep_aligned (q : Nat) (base : ℚ) (f2m : ℚ → Int) (st : RTState) (fr : ℚ × ℚ)
    (h : Aligned st.mel st.har) :
    Aligned (rtStep q base f2m st fr).mel (rtStep q base f2m st fr).har := by
  rw [rtStep]
  split
  · exact h
  · split
    · split
      · exact rtEmit_aligned q st _ h
      · exact h
    · exact h

lemma rtRun_aligned (q : Nat) (base : ℚ) (f2m : ℚ → Int) :
    ∀ (frames : List (ℚ × ℚ)) (st : RTState), Aligned st.mel st.har →
      Aligned ((frames.foldl (rtStep q base f2m) st).mel)
              ((frames.foldl (rtStep q base f2m) st).har) := by
  intro frames
  induction frames with
  | nil => intro st h; exact h
  | cons fr frames ih =>
      intro st h
      rw [List.foldl_cons]
      exact ih _ (rtStep_aligned q base f2m st fr h)

/-- C10: the melody and harmony token sequences have equal length with bar
markers at exactly the same indices and rests at exactly the same indices —
both for every output of the offline quantizer/encoder and after every frame
sequence processed by the canonical real-time stabilizer. -/
theorem buffers_aligned :
    (∀ (raw : List (Option Int)) (sampleRate sliceSize : ℚ) (key : String)
        (q : Nat) (sens : ℚ),
      Aligned (quantizeMelody raw sampleRate sliceSize key q sens).1
              (quantizeMelody raw sampleRate sliceSize key q sens).2)
    ∧ (∀ (q : Nat) (base : ℚ) (f2m : ℚ → Int) (frames : List (ℚ × ℚ)),
      Aligned (rtRun q base f2m frames).mel (rtRun q base f2m frames).har) := by
  constructor
  · intro raw sr ss key q sens
    exact aligned_map q (encodeToks q (quantizeGrid raw sr ss key q sens))
  · intro q base f2m frames
    exact rtRun_aligned q base f2m frames rtInit aligned_nil

end Harmonix
